import Mathlib

/-!
Verification of the two game engines in this repository.

Part I embeds `ConnectFourUtility.py`: the bit-packed connect-four board
(`Board`) and the Monte-Carlo engine (`AI`).  Part II embeds `Gomoku.py`:
the mutable 15×15 grid (`ConnectFiveBoard`) and the heuristic evaluator of
`ConnectFiveEngine`.  The embeddings follow the Python source line by line;
machine integers are modelled as `Nat` (Python integers are unbounded, and
the bitwise operations used by the source coincide with `Nat` bitwise
operations), the float scores of the evaluator are modelled as `Rat`
(every score in the table is a multiple of 1/2, so Python float arithmetic
is exact on them), and Python lists used as stacks are modelled as Lean
lists with the most recent element first.
-/

namespace Board

/-- State of the connect-four bitboard: `(maskA, maskB, turn)` exactly as the
tuple returned by `Board.start` / `Board.updateState` in the source. -/
abbrev GameState := Nat × Nat × Nat

/-- Source constant `self.ROWCOUNT = 6`. -/
def ROWCOUNT : Nat := 6

/-- Source constant `self.COLUMNCOUNT = 7`. -/
def COLUMNCOUNT : Nat := 7

/-- Source constant `self.boardMask = 4398046511103`. -/
def boardMask : Nat := 4398046511103

/-- Source constant `self.colMask = 63`. -/
def colMask : Nat := 63

/-- Source constant `self.rowMask = 69810262081`. -/
def rowMask : Nat := 69810262081

/-- Source constant `self.leftMask`. -/
def leftMask : List Nat :=
  [34630287489, 541098242, 8454660, 2216338399296, 1108169199616, 554084597760]

/-- Source constant `self.rightMask`. -/
def rightMask : List Nat :=
  [1108378656, 17318416, 270600, 70936233984, 141872463872, 283744665600]

/-- `Board.start`: the initial state `(0, 0, 1)`. -/
def start : GameState := (0, 0, 1)

/-- `Board.updateState(state, col)`.  `playerIndex = state[2] - 1` selects which
mask belongs to the mover; the game only ever calls this with `state[2]`
equal to 1 or 2, for which the `if playerIndex = 0` branch reproduces the
Python tuple indexing `state[playerIndex]` / `state[opponentIndex]`. -/
def updateState (state : GameState) (col : Nat) : GameState :=
  let playerIndex := state.2.2 - 1
  let shift := ROWCOUNT * col
  let cMask := colMask <<< shift
  let player := if playerIndex = 0 then state.1 else state.2.1
  let opponent := if playerIndex = 0 then state.2.1 else state.1
  let playerMask := player &&& cMask
  let opponentMask := opponent &&& cMask
  let curr := playerMask ||| opponentMask
  let new := ((curr <<< 1) ||| (1 <<< shift)) ^^^ opponentMask
  let playerCol := player ||| new
  if playerIndex = 0 then (playerCol, state.2.1, 3 - state.2.2)
  else (state.1, playerCol, 3 - state.2.2)

/-- `Board.isColumnFull(state, col)`. -/
def isColumnFull (state : GameState) (col : Nat) : Bool :=
  let mask := colMask <<< (ROWCOUNT * col)
  (state.1 ||| state.2.1) &&& mask == mask

/-- `Board.getLegalMoves(state)`. -/
def getLegalMoves (state : GameState) : List Nat :=
  (List.range COLUMNCOUNT).filter (fun col => !isColumnFull state col)

/-- `Board.isLegalMove(state, col)`; the Python `0 <= col` guard is vacuous for
a natural-number column. -/
def isLegalMove (state : GameState) (col : Nat) : Bool :=
  decide (col < COLUMNCOUNT) && !isColumnFull state col

/-- `Board.isBoardFull(state)`. -/
def isBoardFull (state : GameState) : Bool :=
  state.1 ||| state.2.1 == boardMask

/-- `Board.hasColWinner(playerMask)`. -/
def hasColWinner (playerMask : Nat) : Bool :=
  (List.range COLUMNCOUNT).any (fun col =>
    let cMask := playerMask &&& (colMask <<< (ROWCOUNT * col))
    cMask &&& (cMask <<< 1) &&& (cMask <<< 2) &&& (cMask <<< 3) != 0)

/-- `Board.hasRowWinner(playerMask)`. -/
def hasRowWinner (playerMask : Nat) : Bool :=
  (List.range ROWCOUNT).any (fun row =>
    let rMask := playerMask &&& (rowMask <<< row)
    rMask &&& (rMask <<< ROWCOUNT) &&& (rMask <<< (ROWCOUNT * 2))
      &&& (rMask <<< (ROWCOUNT * 3)) != 0)

/-- `Board.hasDiagonalWinner(playerMask)`. -/
def hasDiagonalWinner (playerMask : Nat) : Bool :=
  leftMask.any (fun mask =>
    let lMask := playerMask &&& mask
    lMask &&& (lMask <<< COLUMNCOUNT) &&& (lMask <<< (COLUMNCOUNT * 2))
      &&& (lMask <<< (COLUMNCOUNT * 3)) != 0) ||
  rightMask.any (fun mask =>
    let rMask := playerMask &&& mask
    rMask &&& (rMask >>> (ROWCOUNT - 1)) &&& (rMask >>> ((ROWCOUNT - 1) * 2))
      &&& (rMask >>> ((ROWCOUNT - 1) * 3)) != 0)

/-- `Board.hasWinner(state)`: tests the mask of the player who just moved,
`state[2 - state[2]]`, which is `state[1]` when it is player 1's turn and
`state[0]` when it is player 2's turn. -/
def hasWinner (state : GameState) : Nat :=
  let mask := if 2 - state.2.2 = 0 then state.1 else state.2.1
  if hasRowWinner mask || hasColWinner mask || hasDiagonalWinner mask then
    3 - state.2.2
  else 0

/-- The mover's updated column expression from `updateState`:
`new = ((curr << 1) | (1 << shift)) ^ opponentMask`. -/
def placeNew (p o shift : Nat) : Nat :=
  (((p &&& (colMask <<< shift)) ||| (o &&& (colMask <<< shift))) <<< 1
      ||| (1 <<< shift)) ^^^ (o &&& (colMask <<< shift))

/-- Invariant of the bitboard: the two masks are disjoint, every occupied bit
lies below bit 42 (inside `boardMask`), every column is filled bottom-up,
and the turn marker is 1 or 2. -/
def Inv (s : GameState) : Prop :=
  s.1 &&& s.2.1 = 0
  ∧ (∀ i, (s.1 ||| s.2.1).testBit i = true → i < 42)
  ∧ (∀ i, (s.1 ||| s.2.1).testBit i = true → i % 6 ≠ 0 →
      (s.1 ||| s.2.1).testBit (i - 1) = true)
  ∧ (s.2.2 = 1 ∨ s.2.2 = 2)

/-- States reachable from `Board.start` by legal moves. -/
inductive Reachable : GameState → Prop
  | base : Reachable start
  | step {s : GameState} {col : Nat} :
      Reachable s → isLegalMove s col = true → Reachable (updateState s col)

end Board

namespace AI

open Board

/-- Model of a Python dict used by the `AI` class, as an association list. -/
abbrev Store (α : Type) := List (GameState × α)

/-- Python `d.get(k, default)`. -/
def lookupD {α : Type} (l : Store α) (k : GameState) (d : α) : α :=
  match l.find? (fun e => e.1 == k) with
  | some e => e.2
  | none => d

/-- Python `k in d`. -/
def containsKey {α : Type} (l : Store α) (k : GameState) : Bool :=
  l.any (fun e => e.1 == k)

/-- The `plays` and `wins` dictionaries of the `AI` class: play counts are
integers, win counts accumulate `1` and `0.5` and are modelled as rationals
(both are exact in Python floats). -/
abbrev Stores := Store Nat × Store Rat

/-- The win rate `self.wins.get(nextState, 0) / self.plays.get(nextState, 1)`
computed in the selection loop of `AI.getNextMoves`. -/
def winRate (plays : Store Nat) (wins : Store Rat) (st : GameState) : Rat :=
  lookupD wins st 0 / (lookupD plays st 1 : Nat)

/-- The selection loop of `AI.getNextMoves` (source lines 141-149): iterate
over the legal moves carrying `nextMove` (initially `None`) and
`highestWinRate` (initially `0`), replacing them whenever a strictly higher
win rate is found. -/
def selGo (plays : Store Nat) (wins : Store Rat) (state : GameState) :
    List Nat → Option Nat → Rat → Option Nat
  | [], nextMove, _ => nextMove
  | move :: rest, nextMove, highestWinRate =>
    let wr := winRate plays wins (updateState state move)
    if highestWinRate < wr then selGo plays wins state rest (some move) wr
    else selGo plays wins state rest nextMove highestWinRate

/-- The move-selection phase of `AI.getNextMoves`, as a function of the
contents of the `plays`/`wins` stores at selection time. -/
def selectNextMove (plays : Store Nat) (wins : Store Rat) (state : GameState) :
    Option Nat :=
  selGo plays wins state (getLegalMoves state) none 0

/-- The list `nextStates` built in each iteration of `AI.runSimulation`. -/
def nextStatesOf (state : GameState) : List GameState :=
  (getLegalMoves state).map (updateState state)

/-- One descent step of `AI.runSimulation` (source lines 171-179), selecting
the next state from `nextStates`.  The UCT branch (taken when every child is
already in `plays`) computes a float `sqrt`/`log` formula and is passed in as
the oracle `uctChoice`; the `else` branch is Python's `choice(nextStates)`,
a uniformly random element, modelled by the index oracle `pick` reduced
modulo the length of the list — so the support of the random draw is the
whole of `nextStates`. -/
def simStep (uctChoice : List GameState → GameState) (plays : Store Nat)
    (pick : Nat) (state : GameState) : GameState :=
  let nextStates := nextStatesOf state
  if nextStates.all (fun pos => containsKey plays pos) then uctChoice nextStates
  else nextStates.getD (pick % nextStates.length) start

/-- Iterates the simulation phase; `AI.getNextMoves` runs `runSimulation`
until a wall-clock budget elapses, which we model as an oracle number of
iterations of an oracle store transformer. -/
def iterateSim : Nat → (Stores → Stores) → Stores → Stores
  | 0, _, stores => stores
  | n + 1, simulate, stores => iterateSim n simulate (simulate stores)

/-- Return value of `AI.getNextMoves`: Python returns `False` when there is
no legal move, a column index when a move is selected, and `None` when the
selection loop never finds a positive win rate. -/
inductive MoveChoice : Type
  | falseSentinel : MoveChoice
  | col : Nat → MoveChoice
  | noneSentinel : MoveChoice
deriving DecidableEq

/-- `AI.getNextMoves` together with the store it leaves behind.  The
wall-clock simulation phase (`while default_timer() - start < ...`) is
modelled by the oracle pair `simCount`/`simulate`; the early returns for
zero and one legal move happen before any simulation, exactly as in the
source. -/
def getNextMoves (simCount : Nat) (simulate : Stores → Stores)
    (stores : Stores) (state : GameState) : MoveChoice × Stores :=
  let legal := getLegalMoves state
  if legal.length = 0 then (MoveChoice.falseSentinel, stores)
  else if legal.length = 1 then (MoveChoice.col (legal.headD 0), stores)
  else
    let stores2 := iterateSim simCount simulate stores
    match selectNextMove stores2.1 stores2.2 state with
    | some m => (MoveChoice.col m, stores2)
    | none => (MoveChoice.noneSentinel, stores2)

end AI

namespace ConnectFiveBoard

/-- The mutable grid of `Gomoku.py`.  Cells hold Python strings (`"X"`/`"O"`)
or `None`; the undo stack is kept most-recent-first (Python appends to and
pops from the end of a list); `squareValue` is the random Zobrist table,
fixed for the lifetime of the board and hence modelled as a function field.
The LRU transposition cache `table` is owned by the search engine and is not
touched by any of the operations verified here, so it is not part of the
record. -/
structure State where
  size : Nat
  board : List (List (Option String))
  undoStack : List (Nat × Nat × String)
  hashKey : Nat
  squareValue : Nat → Nat → Nat × Nat

/-- Python `self.board[row][col]` (all verified accesses are in bounds). -/
def getCell (s : State) (row col : Nat) : Option String :=
  (s.board.getD row []).getD col none

/-- Python `self.board[row][col] = v` (in-bounds in all verified uses). -/
def setCell (board : List (List (Option String))) (row col : Nat)
    (v : Option String) : List (List (Option String)) :=
  board.set row ((board.getD row []).set col v)

/-- Python `self.squareValue[row][col][0 if piece == "X" else 1]`. -/
def squareValueAt (s : State) (row col : Nat) (piece : String) : Nat :=
  if piece == "X" then (s.squareValue row col).1 else (s.squareValue row col).2

/-- `ConnectFiveBoard.placePiece`: write the cell, push the move, XOR the
cell's random value into the hash.  No legality check (AI-only entry). -/
def placePiece (s : State) (row col : Nat) (piece : String) : State :=
  { s with
    board := setCell s.board row col (some piece)
    undoStack := (row, col, piece) :: s.undoStack
    hashKey := s.hashKey ^^^ squareValueAt s row col piece }

/-- `ConnectFiveBoard.undoMove`: pop the most recent move, clear its cell,
XOR its random value back out of the hash.  Python raises on an empty stack;
callers guarantee non-emptiness, and the embedding returns the state
unchanged in that unreachable case. -/
def undoMove (s : State) : State :=
  match s.undoStack with
  | [] => s
  | (row, col, piece) :: rest =>
    { s with
      board := setCell s.board row col none
      undoStack := rest
      hashKey := s.hashKey ^^^ squareValueAt s row col piece }

/-- `ConnectFiveBoard.isLegalMove`: in bounds and empty (the Python
`0 <= row`/`0 <= col` guards are vacuous for natural numbers). -/
def isLegalMove (s : State) (row col : Nat) : Bool :=
  decide (row < s.size) && decide (col < s.size) && (getCell s row col == none)

/-- `ConnectFiveBoard.userPlacePiece`: validates the move and the piece, then
performs exactly the three updates of `placePiece`; returns the success flag
together with the resulting state. -/
def userPlacePiece (s : State) (row col : Nat) (piece : String) :
    Bool × State :=
  if isLegalMove s row col && (piece == "X" || piece == "O") then
    (true,
      { s with
        board := setCell s.board row col (some piece)
        undoStack := (row, col, piece) :: s.undoStack
        hashKey := s.hashKey ^^^ squareValueAt s row col piece })
  else (false, s)

/-- `ConnectFiveBoard.userUndoMove`: when at least two moves have been
played, pop the two most recent entries and XOR their random values back out
of the hash.  Note that, unlike `undoMove`, the source never writes to
`self.board` here: the two cells keep their pieces. -/
def userUndoMove (s : State) : State :=
  match s.undoStack with
  | (r1, c1, p1) :: (r2, c2, p2) :: rest =>
    { s with
      undoStack := rest
      hashKey := s.hashKey ^^^ squareValueAt s r1 c1 p1 ^^^ squareValueAt s r2 c2 p2 }
  | _ => s

/-- `ConnectFiveBoard.isBoardEmpty`. -/
def isBoardEmpty (s : State) : Bool :=
  s.board.all (fun row => row.all (fun square => square == none))

/-- Python `self.board[r][c]` at signed indices: every use below is guarded
so that both indices are non-negative and in range, as in the source. -/
def getCellI (s : State) (r c : Int) : Option String :=
  if 0 ≤ r ∧ 0 ≤ c then getCell s r.toNat c.toNat else none

/-- Loop body of `ConnectFiveBoard.hasRowCombination`, carrying the
`consecutive` counter over the scanned columns. -/
def rowComboGo (s : State) (row : Nat) (piece opponent : String)
    (criteria blockedEnds : Nat) : List Nat → Nat → Bool
  | [], _ => false
  | eachCol :: rest, consecutive =>
    if getCell s row eachCol == some piece then
      let consecutive2 := consecutive + 1
      if consecutive2 == criteria then
        if blockedEnds == 2 then true
        else
          let left := decide (criteria ≤ eachCol)
            && !(getCell s row (eachCol - criteria) == some opponent)
          let right := decide (eachCol + 1 < s.size)
            && !(getCell s row (eachCol + 1) == some opponent)
          if blockedEnds == 1 && (left || right) then true
          else if left && right then true
          else rowComboGo s row piece opponent criteria blockedEnds rest consecutive2
      else rowComboGo s row piece opponent criteria blockedEnds rest consecutive2
    else rowComboGo s row piece opponent criteria blockedEnds rest 0

/-- `ConnectFiveBoard.hasRowCombination(row, col, piece, criteria, blockedEnds)`. -/
def hasRowCombination (s : State) (row col : Nat) (piece : String)
    (criteria blockedEnds : Nat) : Bool :=
  let opponent := if piece == "O" then "X" else "O"
  let lo := col + 1 - criteria
  let hi := min s.size (col + criteria)
  rowComboGo s row piece opponent criteria blockedEnds
    ((List.range (hi - lo)).map (fun j => lo + j)) 0

/-- Loop body of `ConnectFiveBoard.hasColCombination`. -/
def colComboGo (s : State) (col : Nat) (piece opponent : String)
    (criteria blockedEnds : Nat) : List Nat → Nat → Bool
  | [], _ => false
  | eachRow :: rest, consecutive =>
    if getCell s eachRow col == some piece then
      let consecutive2 := consecutive + 1
      if consecutive2 == criteria then
        if blockedEnds == 2 then true
        else
          let top := decide (criteria ≤ eachRow)
            && !(getCell s (eachRow - criteria) col == some opponent)
          let bottom := decide (eachRow + 1 < s.size)
            && !(getCell s (eachRow + 1) col == some opponent)
          if blockedEnds == 1 && (top || bottom) then true
          else if top && bottom then true
          else colComboGo s col piece opponent criteria blockedEnds rest consecutive2
      else colComboGo s col piece opponent criteria blockedEnds rest consecutive2
    else colComboGo s col piece opponent criteria blockedEnds rest 0

/-- `ConnectFiveBoard.hasColCombination(row, col, piece, criteria, blockedEnds)`. -/
def hasColCombination (s : State) (row col : Nat) (piece : String)
    (criteria blockedEnds : Nat) : Bool :=
  let opponent := if piece == "O" then "X" else "O"
  let lo := row + 1 - criteria
  let hi := min s.size (row + criteria)
  colComboGo s col piece opponent criteria blockedEnds
    ((List.range (hi - lo)).map (fun j => lo + j)) 0

/-- Loop body of `ConnectFiveBoard.hasLeftDiagonalCombination`; the increment
`inc` ranges over signed values. -/
def leftDiagGo (s : State) (row col : Int) (piece opponent : String)
    (criteria blockedEnds : Nat) : List Int → Nat → Bool
  | [], _ => false
  | inc :: rest, consecutive =>
    if getCellI s (row + inc) (col + inc) == some piece then
      let consecutive2 := consecutive + 1
      if consecutive2 == criteria then
        if blockedEnds == 2 then true
        else
          let thisRow := row + inc
          let thisCol := col + inc
          let top := decide (0 ≤ thisRow - criteria ∧ 0 ≤ thisCol - criteria)
            && !(getCellI s (thisRow - criteria) (thisCol - criteria) == some opponent)
          let bottom := decide (thisRow + 1 < s.size ∧ thisCol + 1 < s.size)
            && !(getCellI s (thisRow + 1) (thisCol + 1) == some opponent)
          if blockedEnds == 1 && (top || bottom) then true
          else if top && bottom then true
          else leftDiagGo s row col piece opponent criteria blockedEnds rest consecutive2
      else leftDiagGo s row col piece opponent criteria blockedEnds rest consecutive2
    else leftDiagGo s row col piece opponent criteria blockedEnds rest 0

/-- `ConnectFiveBoard.hasLeftDiagonalCombination(row, col, piece, criteria,
blockedEnds)`. -/
def hasLeftDiagonalCombination (s : State) (row col : Nat) (piece : String)
    (criteria blockedEnds : Nat) : Bool :=
  let opponent := if piece == "O" then "X" else "O"
  let lo : Int := -(min (min (row : Int) (col : Int)) ((criteria : Int) - 1))
  let hi : Int := min (min ((s.size : Int) - row) ((s.size : Int) - col)) (criteria : Int)
  leftDiagGo s row col piece opponent criteria blockedEnds
    ((List.range (hi - lo).toNat).map (fun j => lo + j)) 0

/-- Loop body of `ConnectFiveBoard.hasRightDiagonalCombination`. -/
def rightDiagGo (s : State) (row col : Int) (piece opponent : String)
    (criteria blockedEnds : Nat) : List Int → Nat → Bool
  | [], _ => false
  | inc :: rest, consecutive =>
    if getCellI s (row + inc) (col - inc) == some piece then
      let consecutive2 := consecutive + 1
      if consecutive2 == criteria then
        if blockedEnds == 2 then true
        else
          let thisRow := row + inc
          let thisCol := col - inc
          let top := decide (0 ≤ thisRow - criteria ∧ thisCol + criteria < s.size)
            && !(getCellI s (thisRow - criteria) (thisCol + criteria) == some opponent)
          let bottom := decide (thisRow + 1 < s.size ∧ 0 ≤ thisCol - 1)
            && !(getCellI s (thisRow + 1) (thisCol - 1) == some opponent)
          if blockedEnds == 1 && (top || bottom) then true
          else if top && bottom then true
          else rightDiagGo s row col piece opponent criteria blockedEnds rest consecutive2
      else rightDiagGo s row col piece opponent criteria blockedEnds rest consecutive2
    else rightDiagGo s row col piece opponent criteria blockedEnds rest 0

/-- `ConnectFiveBoard.hasRightDiagonalCombination(row, col, piece, criteria,
blockedEnds)`. -/
def hasRightDiagonalCombination (s : State) (row col : Nat) (piece : String)
    (criteria blockedEnds : Nat) : Bool :=
  let opponent := if piece == "O" then "X" else "O"
  let lo : Int := -(min (min (row : Int) ((s.size : Int) - col - 1)) ((criteria : Int) - 1))
  let hi : Int := min (min ((s.size : Int) - row) ((col : Int) + 1)) (criteria : Int)
  rightDiagGo s row col piece opponent criteria blockedEnds
    ((List.range (hi - lo).toNat).map (fun j => lo + j)) 0

/-- `ConnectFiveBoard.selfHasFour`: guarded by `len(self.undoStack) > 8`,
then checks an open four around the second most recent move
(`self.undoStack[-2]`, the head's successor in our most-recent-first
stack). -/
def selfHasFour (s : State) : Bool :=
  if 8 < s.undoStack.length then
    match s.undoStack with
    | _ :: (row, col, piece) :: _ =>
      hasRowCombination s row col piece 4 1 || hasColCombination s row col piece 4 1
        || hasLeftDiagonalCombination s row col piece 4 1
        || hasRightDiagonalCombination s row col piece 4 1
    | _ => false
  else false

/-- `ConnectFiveBoard.opponentHasFour`: guarded by `len(self.undoStack) > 6`,
then checks an open four around the most recent move (`self.undoStack[-1]`). -/
def opponentHasFour (s : State) : Bool :=
  if 6 < s.undoStack.length then
    match s.undoStack with
    | (row, col, piece) :: _ =>
      hasRowCombination s row col piece 4 1 || hasColCombination s row col piece 4 1
        || hasLeftDiagonalCombination s row col piece 4 1
        || hasRightDiagonalCombination s row col piece 4 1
    | _ => false
  else false

/-- Small concrete grid used as an input for witnesses: a 2×2 empty board
with hash 0 and a pairwise-distinct power-of-two Zobrist table. -/
def sampleGrid : State :=
  { size := 2
    board := [[none, none], [none, none]]
    undoStack := []
    hashKey := 0
    squareValue := fun r c => (2 ^ (2 * (2 * r + c)), 2 ^ (2 * (2 * r + c) + 1)) }

end ConnectFiveBoard

namespace ConnectFiveEngine

open ConnectFiveBoard

/-- Reachability condition of the tactical shortcut branch of
`ConnectFiveEngine.findNextMove`: the quick-win return (`selfHasFour`
followed by `findQuickWin`) is taken exactly when the board is not empty and
`selfHasFour` holds. -/
def findNextMoveShortcut (s : State) : Bool :=
  !isBoardEmpty s && selfHasFour s

/-- The heuristic weight table `ConnectFiveEngine.combinationScore`, keyed by
`(consecutive, blockedEnds, currentTurn)`; the Python float values `12.5`,
`7.5`, `0.5` are the exact rationals `25/2`, `15/2`, `1/2`.  Keys absent from
the Python dict (for example any run length above 5) return `none`. -/
def combinationScore : Nat × Nat × Bool → Option Rat
  | (5, 0, true) => some 200000000
  | (5, 0, false) => some 200000000
  | (5, 1, true) => some 200000000
  | (5, 1, false) => some 200000000
  | (5, 2, true) => some 200000000
  | (5, 2, false) => some 200000000
  | (4, 0, true) => some 100000000
  | (4, 0, false) => some 50000000
  | (4, 1, true) => some 100000000
  | (4, 1, false) => some 50
  | (3, 0, true) => some 10000
  | (3, 0, false) => some 50
  | (3, 1, true) => some (25 / 2)
  | (3, 1, false) => some (15 / 2)
  | (2, 0, true) => some (15 / 2)
  | (2, 0, false) => some 5
  | (2, 1, true) => some 2
  | (2, 1, false) => some 2
  | (1, 0, true) => some 1
  | (1, 0, false) => some 1
  | (1, 1, true) => some (1 / 2)
  | (1, 1, false) => some (1 / 2)
  | _ => none

/-- Python `sequence[start]`, evaluated only when `start >= 0` in the source
(the `start < 0` case is caught by the preceding branch). -/
def seqGet (sequence : List (Option String)) (i : Int) : Option String :=
  if 0 ≤ i then sequence.getD i.toNat none else none

/-- The loop of `ConnectFiveEngine.getHeuristicScore`, carrying the running
`(count, total, piece)` triple and the enumeration `index` over the still
unprocessed suffix of `sequence`. -/
def heuristicGo (sequence : List (Option String)) (turn : String) :
    List (Option String) → Nat → Nat → Rat → Option String → Rat
  | [], _, _, total, _ => total
  | square :: rest, index, count, total, piece =>
    if square == piece then
      match piece with
      | none => heuristicGo sequence turn rest (index + 1) count total piece
      | some _ => heuristicGo sequence turn rest (index + 1) (count + 1) total piece
    else
      let total2 :=
        match piece with
        | none => total
        | some pc =>
          if 0 < count then
            let start : Int := (index : Int) - count - 1
            let blockedEnds : Nat :=
              (if square ≠ none ∨ sequence.length - 1 ≤ index then 1 else 0)
              + (if start < 0 then 1
                 else if seqGet sequence start ≠ none then 1 else 0)
            match combinationScore (count, blockedEnds, turn == pc) with
            | some w => if pc == "X" then total + w else total - w
            | none => total
          else total
      heuristicGo sequence turn rest (index + 1)
        (if square == none then 0 else 1) total2 square

/-- `ConnectFiveEngine.getHeuristicScore(sequence, turn)`: the loop starting
from `count = 0`, `total = 0`, `piece = None` at index 0. -/
def getHeuristicScore (sequence : List (Option String)) (turn : String) : Rat :=
  heuristicGo sequence turn sequence 0 0 0 none

/-- Signed contribution of one maximal run, as specified: the weight of
`(runLength, blockedEnds, owner = mover)` is looked up in the table, added
for `"X"` and subtracted for the other side, and a missing key contributes
nothing. -/
def runWeight (turn pc : String) (len blockedEnds : Nat) : Rat :=
  match combinationScore (len, blockedEnds, turn == pc) with
  | some w => if pc == "X" then w else -w
  | none => 0

/-- Number of leading cells equal to `some pc`. -/
def leadCount (pc : String) : List (Option String) → Nat
  | some q :: rest => if q == pc then leadCount pc rest + 1 else 0
  | _ => 0

/-- Specification-side score of a line: the sum, over the maximal runs of
identical non-empty pieces of `l`, of the signed table weight of
`(run length, blocked ends, ownership)`.  `leftBlocked` records whether the
left end of the first run (if the line starts with one) is blocked by the
board edge or by an adjacent piece; within the sum, a run is blocked on the
right by the end of the line or an adjacent piece, and the run following a
piece-terminated run is blocked on the left. -/
def runsScore (turn : String) : List (Option String) → Bool → Rat
  | [], _ => 0
  | none :: rest, _ => runsScore turn rest false
  | some q :: rest, leftBlocked =>
    let k := leadCount q rest
    let rest2 := rest.drop k
    let rightBlocked : Bool :=
      match rest2 with
      | [] => true
      | none :: _ => false
      | some _ :: _ => true
    runWeight turn q (k + 1)
        ((if leftBlocked then 1 else 0) + (if rightBlocked then 1 else 0))
      + runsScore turn rest2 true
termination_by l => l.length
decreasing_by
  · simp
  · simp only [List.length_drop, List.length_cons]
    omega

/-- Whether the cell just before the suffix processed by `heuristicGo` blocks
the left end of a run starting at that suffix: the board edge (empty prefix)
or a piece blocks, an empty cell does not. -/
def leftB (pfx : List (Option String)) : Bool :=
  match pfx.getLast? with
  | Option.none => true
  | some Option.none => false
  | some (some _) => true

/-- Right-end blocking of a run, read off the list that follows the run. -/
def rightBlockedOf : List (Option String) → Bool
  | [] => true
  | none :: _ => false
  | some _ :: _ => true

end ConnectFiveEngine

namespace Board

theorem updateState_turn1 (s : GameState) (col : Nat) (h : s.2.2 = 1) :
    updateState s col = (s.1 ||| placeNew s.1 s.2.1 (6 * col), s.2.1, 2) := by
  simp [updateState, placeNew, h, ROWCOUNT]

theorem updateState_turn2 (s : GameState) (col : Nat) (h : s.2.2 = 2) :
    updateState s col = (s.1, s.2.1 ||| placeNew s.2.1 s.1 (6 * col), 1) := by
  simp [updateState, placeNew, h, ROWCOUNT]

theorem land_eq_zero_of_pointwise {a b : Nat}
    (h : ∀ i, a.testBit i = true → b.testBit i = false) : a &&& b = 0 := by
  apply Nat.eq_of_testBit_eq
  intro i
  simp only [Nat.testBit_land, Nat.zero_testBit]
  rcases ha : a.testBit i with _ | _
  · simp
  · simp [h i ha]

theorem pointwise_of_land_eq_zero {a b : Nat} (h : a &&& b = 0) (i : Nat)
    (ha : a.testBit i = true) : b.testBit i = false := by
  by_contra hb
  have hb' : b.testBit i = true := by
    rcases hbit : b.testBit i with _ | _
    · exact absurd hbit hb
    · rfl
  have := congrArg (fun n => n.testBit i) h
  simp [Nat.testBit_land, ha, hb', Nat.zero_testBit] at this

theorem testBit_colMask (col i : Nat) :
    (colMask <<< (6 * col)).testBit i
      = decide (6 * col ≤ i ∧ i < 6 * col + 6) := by
  have h63 : colMask = 2 ^ 6 - 1 := by norm_num [colMask]
  rw [h63, Nat.testBit_shiftLeft, Nat.testBit_two_pow_sub_one]
  by_cases hle : 6 * col ≤ i
  · by_cases hlt : i < 6 * col + 6
    · have h1 : i - 6 * col < 6 := by omega
      simp [h1, hle, hlt]
    · have h1 : ¬(i - 6 * col < 6) := by omega
      simp [hle, hlt, h1]
  · simp [hle]

theorem testBit_one_shift (shift i : Nat) :
    ((1 : Nat) <<< shift).testBit i = decide (i = shift) := by
  rw [Nat.shiftLeft_eq, one_mul, Nat.testBit_two_pow]
  by_cases h : shift = i
  · simp [h]
  · have h2 : ¬i = shift := fun hh => h hh.symm
    simp [h, h2]

theorem curr_testBit (p o col k : Nat) (hk : k < 6)
    (hT : ∀ r, r < 6 → (((p ||| o).testBit (6 * col + r) = true) ↔ r < k)) (j : Nat) :
    ((p &&& (colMask <<< (6 * col))) ||| (o &&& (colMask <<< (6 * col)))).testBit j
      = decide (6 * col ≤ j ∧ j < 6 * col + k) := by
  simp only [Nat.testBit_lor, Nat.testBit_land, testBit_colMask]
  by_cases hin : 6 * col ≤ j ∧ j < 6 * col + 6
  · have hj : 6 * col + (j - 6 * col) = j := by omega
    have hr := hT (j - 6 * col) (by omega)
    rw [hj, Nat.testBit_lor] at hr
    have hstep : (p.testBit j || o.testBit j) = decide (j - 6 * col < k) := by
      rcases hc2 : p.testBit j || o.testBit j with _ | _
      · have hnot : ¬(j - 6 * col < k) := by
          intro hcon
          have hx := hr.mpr hcon
          rw [hx] at hc2
          exact Bool.noConfusion hc2
        simp [hnot]
      · simp [hr.mp hc2]
    rw [decide_eq_true hin]
    simp only [Bool.and_true]
    rw [hstep]
    exact decide_eq_decide.mpr (by omega)
  · have hfalse : decide (6 * col ≤ j ∧ j < 6 * col + 6) = false := by
      simp only [decide_eq_false_iff_not]; exact hin
    have hfalse2 : decide (6 * col ≤ j ∧ j < 6 * col + k) = false := by
      simp only [decide_eq_false_iff_not]; omega
    simp [hfalse, hfalse2]

theorem placeNew_or_testBit (p o col k : Nat) (hk : k < 6)
    (hT : ∀ r, r < 6 → (((p ||| o).testBit (6 * col + r) = true) ↔ r < k)) (i : Nat) :
    (p ||| placeNew p o (6 * col)).testBit i
      = (p.testBit i || decide (i = 6 * col + k)) := by
  have hkbit : (p ||| o).testBit (6 * col + k) = false := by
    rcases hb : (p ||| o).testBit (6 * col + k) with _ | _
    · rfl
    · have := (hT k hk).mp hb; omega
  rw [Nat.testBit_lor] at hkbit
  have hpk : p.testBit (6 * col + k) = false := by
    rcases hb : p.testBit (6 * col + k) with _ | _
    · rfl
    · rw [hb] at hkbit; simp at hkbit
  have hok : o.testBit (6 * col + k) = false := by
    rcases hb : o.testBit (6 * col + k) with _ | _
    · rfl
    · rw [hb] at hkbit; simp at hkbit
  simp only [placeNew, Nat.testBit_lor, Nat.testBit_xor]
  rw [testBit_one_shift, Nat.testBit_land, testBit_colMask, Nat.testBit_shiftLeft,
    curr_testBit p o col k hk hT]
  by_cases h3 : i = 6 * col + k
  · subst h3
    have hfirst : ((decide (6 * col + k ≥ 1)
        && decide (6 * col ≤ 6 * col + k - 1 ∧ 6 * col + k - 1 < 6 * col + k))
        || decide (6 * col + k = 6 * col)) = true := by
      by_cases hk0 : k = 0
      · subst hk0; simp
      · have h1 : decide (6 * col + k ≥ 1) = true := by
          simp only [decide_eq_true_eq]; omega
        have h2 : decide (6 * col ≤ 6 * col + k - 1 ∧ 6 * col + k - 1 < 6 * col + k)
            = true := by simp only [decide_eq_true_eq]; omega
        rw [h1, h2]
        simp
    rw [hfirst]
    simp [hok, hpk]
  · have hne : decide (i = 6 * col + k) = false := by
      simp only [decide_eq_false_iff_not]; exact h3
    rw [hne]
    by_cases h2 : 6 * col ≤ i ∧ i < 6 * col + k
    · have hocc := (hT (i - 6 * col) (by omega)).mpr (by omega)
      have hj : 6 * col + (i - 6 * col) = i := by omega
      rw [hj, Nat.testBit_lor] at hocc
      have hfirst : ((decide (i ≥ 1)
          && decide (6 * col ≤ i - 1 ∧ i - 1 < 6 * col + k))
          || decide (i = 6 * col)) = true := by
        by_cases hedge : i = 6 * col
        · simp [hedge]
        · have ha : decide (i ≥ 1) = true := by
            simp only [decide_eq_true_eq]; omega
          have hb : decide (6 * col ≤ i - 1 ∧ i - 1 < 6 * col + k) = true := by
            simp only [decide_eq_true_eq]; omega
          simp [ha, hb]
      have hcol6 : decide (6 * col ≤ i ∧ i < 6 * col + 6) = true := by
        simp only [decide_eq_true_eq]; omega
      rw [hfirst, hcol6]
      rcases hp : p.testBit i with _ | _
      · rcases ho : o.testBit i with _ | _
        · rw [hp, ho] at hocc; simp at hocc
        · simp
      · simp
    · have hfirst : ((decide (i ≥ 1)
          && decide (6 * col ≤ i - 1 ∧ i - 1 < 6 * col + k))
          || decide (i = 6 * col)) = false := by
        have ha : decide (6 * col ≤ i - 1 ∧ i - 1 < 6 * col + k) = false
            ∨ decide (i ≥ 1) = false := by
          by_cases hz : i = 0
          · right; simp [hz]
          · left; simp only [decide_eq_false_iff_not]; omega
        have hb : decide (i = 6 * col) = false := by
          simp only [decide_eq_false_iff_not]; omega
        rcases ha with ha | ha <;> simp [ha, hb]
      rw [hfirst]
      by_cases hcol6 : 6 * col ≤ i ∧ i < 6 * col + 6
      · have hocc : (p ||| o).testBit i = false := by
          rcases hb : (p ||| o).testBit i with _ | _
          · rfl
          · have := (hT (i - 6 * col) (by omega)).mp (by
              rwa [show 6 * col + (i - 6 * col) = i by omega])
            omega
        rw [Nat.testBit_lor] at hocc
        have ho : o.testBit i = false := by
          rcases hb : o.testBit i with _ | _
          · rfl
          · rw [hb] at hocc; simp at hocc
        simp [ho]
      · have hc : decide (6 * col ≤ i ∧ i < 6 * col + 6) = false := by
          simp only [decide_eq_false_iff_not]; exact hcol6
        simp [hc]

theorem occ_or_testBit (p o col k : Nat) (hk : k < 6)
    (hT : ∀ r, r < 6 → (((p ||| o).testBit (6 * col + r) = true) ↔ r < k)) (i : Nat) :
    ((p ||| placeNew p o (6 * col)) ||| o).testBit i
      = ((p ||| o).testBit i || decide (i = 6 * col + k)) := by
  rw [Nat.testBit_lor, placeNew_or_testBit p o col k hk hT i, Nat.testBit_lor]
  cases p.testBit i <;> cases o.testBit i <;> simp

theorem col_height (p o col : Nat)
    (hcontig : ∀ i, (p ||| o).testBit i = true → i % 6 ≠ 0 →
      (p ||| o).testBit (i - 1) = true)
    (hfree : ∃ r, r < 6 ∧ (p ||| o).testBit (6 * col + r) = false) :
    ∃ k, k < 6 ∧ ∀ r, r < 6 → (((p ||| o).testBit (6 * col + r) = true) ↔ r < k) := by
  have hex : ∃ r, (p ||| o).testBit (6 * col + r) = false := by
    obtain ⟨r, _, hr⟩ := hfree
    exact ⟨r, hr⟩
  classical
  refine ⟨Nat.find hex, ?_, ?_⟩
  · obtain ⟨r0, hr0, hb0⟩ := hfree
    exact Nat.lt_of_le_of_lt (Nat.find_min' hex hb0) hr0
  · intro r hr6
    constructor
    · intro hbit
      by_contra hge
      have hdesc : ∀ d r2, r2 = Nat.find hex + d → r2 < 6 →
          (p ||| o).testBit (6 * col + r2) = false := by
        intro d
        induction d with
        | zero =>
          intro r2 hr2 _
          rw [hr2, Nat.add_zero]
          exact Nat.find_spec hex
        | succ d ih =>
          intro r2 hr2 hr26
          rcases hb : (p ||| o).testBit (6 * col + r2) with _ | _
          · rfl
          · have hmod : (6 * col + r2) % 6 ≠ 0 := by omega
            have hprev := hcontig (6 * col + r2) hb hmod
            have heq : 6 * col + r2 - 1 = 6 * col + (r2 - 1) := by omega
            rw [heq] at hprev
            have := ih (r2 - 1) (by omega) (by omega)
            rw [this] at hprev
            exact Bool.noConfusion hprev
      have := hdesc (r - Nat.find hex) r (by omega) hr6
      rw [this] at hbit
      exact Bool.noConfusion hbit
    · intro hlt
      rcases hb : (p ||| o).testBit (6 * col + r) with _ | _
      · exact absurd hb (Nat.find_min hex hlt)
      · rfl

theorem isLegalMove_free (s : GameState) (col : Nat) (h : isLegalMove s col = true) :
    col < 7 ∧ ∃ r, r < 6 ∧ (s.1 ||| s.2.1).testBit (6 * col + r) = false := by
  rw [isLegalMove, Bool.and_eq_true, decide_eq_true_eq] at h
  obtain ⟨hcol, hfull⟩ := h
  refine ⟨hcol, ?_⟩
  by_contra hall
  push_neg at hall
  have hmask : (s.1 ||| s.2.1) &&& (colMask <<< (ROWCOUNT * col))
      = colMask <<< (ROWCOUNT * col) := by
    apply Nat.eq_of_testBit_eq
    intro i
    rw [Nat.testBit_land]
    show ((s.1 ||| s.2.1).testBit i && (colMask <<< (6 * col)).testBit i)
      = (colMask <<< (6 * col)).testBit i
    rw [testBit_colMask]
    by_cases hin : 6 * col ≤ i ∧ i < 6 * col + 6
    · have hr := hall (i - 6 * col) (by omega)
      have hb : (s.1 ||| s.2.1).testBit i = true := by
        rcases hbb : (s.1 ||| s.2.1).testBit i with _ | _
        · have heq : 6 * col + (i - 6 * col) = i := by omega
          rw [heq] at hr
          exact absurd hbb hr
        · rfl
      simp [hb]
    · have : decide (6 * col ≤ i ∧ i < 6 * col + 6) = false := by
        simp only [decide_eq_false_iff_not]
        exact hin
      simp [this]
  rw [isColumnFull] at hfull
  rw [hmask] at hfull
  simp at hfull

theorem Inv_updateState {s : GameState} {col : Nat}
    (hInv : Inv s) (hleg : isLegalMove s col = true) : Inv (updateState s col) := by
  obtain ⟨hdisj, hbound, hcontig, hturn⟩ := hInv
  obtain ⟨hcol, hfree⟩ := isLegalMove_free s col hleg
  obtain ⟨k, hk, hT⟩ := col_height s.1 s.2.1 col hcontig hfree
  have hknot : (s.1 ||| s.2.1).testBit (6 * col + k) = false := by
    rcases hb : (s.1 ||| s.2.1).testBit (6 * col + k) with _ | _
    · rfl
    · have := (hT k hk).mp hb
      omega
  have hcore : ∀ pp oo, pp &&& oo = 0 → pp ||| oo = s.1 ||| s.2.1 →
      ((pp ||| placeNew pp oo (6 * col)) &&& oo = 0
      ∧ (∀ i, ((pp ||| placeNew pp oo (6 * col)) ||| oo).testBit i = true → i < 42)
      ∧ (∀ i, ((pp ||| placeNew pp oo (6 * col)) ||| oo).testBit i = true →
          i % 6 ≠ 0 → ((pp ||| placeNew pp oo (6 * col)) ||| oo).testBit (i - 1) = true)) := by
    intro pp oo hdisj2 hocc
    have hT2 : ∀ r, r < 6 → (((pp ||| oo).testBit (6 * col + r) = true) ↔ r < k) := by
      intro r hr
      rw [hocc]
      exact hT r hr
    have hchar := placeNew_or_testBit pp oo col k hk hT2
    have hoccchar := occ_or_testBit pp oo col k hk hT2
    refine ⟨?_, ?_, ?_⟩
    · apply land_eq_zero_of_pointwise
      intro i hi
      rw [hchar i] at hi
      rcases hp : pp.testBit i with _ | _
      · rw [hp] at hi
        simp only [Bool.false_or, decide_eq_true_eq] at hi
        subst hi
        rcases hb : oo.testBit (6 * col + k) with _ | _
        · rfl
        · have : (pp ||| oo).testBit (6 * col + k) = true := by
            rw [Nat.testBit_lor, hb]
            simp
          rw [hocc] at this
          rw [this] at hknot
          exact Bool.noConfusion hknot
      · exact pointwise_of_land_eq_zero hdisj2 i hp
    · intro i hi
      rw [hoccchar i, hocc] at hi
      rcases hb : (s.1 ||| s.2.1).testBit i with _ | _
      · rw [hb] at hi
        simp only [Bool.false_or, decide_eq_true_eq] at hi
        omega
      · exact hbound i hb
    · intro i hi hmod
      rw [hoccchar i, hocc] at hi
      rw [hoccchar (i - 1), hocc]
      rcases hb : (s.1 ||| s.2.1).testBit i with _ | _
      · rw [hb] at hi
        simp only [Bool.false_or, decide_eq_true_eq] at hi
        subst hi
        have hkpos : k ≠ 0 := by omega
        have hbit := (hT (k - 1) (by omega)).mpr (by omega)
        have heq : 6 * col + k - 1 = 6 * col + (k - 1) := by omega
        rw [heq, hbit]
        simp
      · have := hcontig i hb hmod
        rw [this]
        simp
  rcases hturn with h1 | h1
  · rw [updateState_turn1 s col h1]
    obtain ⟨c1, c2, c3⟩ := hcore s.1 s.2.1 hdisj rfl
    exact ⟨c1, c2, c3, Or.inr rfl⟩
  · rw [updateState_turn2 s col h1]
    have hdisj2 : s.2.1 &&& s.1 = 0 := by rw [Nat.land_comm]; exact hdisj
    have hocc2 : s.2.1 ||| s.1 = s.1 ||| s.2.1 := Nat.lor_comm _ _
    obtain ⟨c1, c2, c3⟩ := hcore s.2.1 s.1 hdisj2 hocc2
    have hcomm : ∀ i, ((s.1 ||| (s.2.1 ||| placeNew s.2.1 s.1 (6 * col))).testBit i)
        = (((s.2.1 ||| placeNew s.2.1 s.1 (6 * col)) ||| s.1).testBit i) := by
      intro i
      rw [Nat.lor_comm]
    refine ⟨?_, ?_, ?_, Or.inl rfl⟩
    · rw [Nat.land_comm]
      exact c1
    · intro i hi
      rw [hcomm i] at hi
      exact c2 i hi
    · intro i hi hmod
      rw [hcomm i] at hi
      rw [hcomm (i - 1)]
      exact c3 i hi hmod

theorem Inv_start : Inv start := by
  refine ⟨rfl, ?_, ?_, Or.inl rfl⟩
  · intro i hi
    rw [show start.1 ||| start.2.1 = 0 from rfl, Nat.zero_testBit] at hi
    exact Bool.noConfusion hi
  · intro i hi
    rw [show start.1 ||| start.2.1 = 0 from rfl, Nat.zero_testBit] at hi
    exact fun _ => Bool.noConfusion hi

theorem Reachable_Inv {s : GameState} (h : Reachable s) : Inv s := by
  induction h with
  | base => exact Inv_start
  | step hr hleg ih => exact Inv_updateState ih hleg

theorem Inv_boardMask {s : GameState} (h : Inv s) :
    s.1 &&& s.2.1 = 0 ∧ (s.1 ||| s.2.1) &&& boardMask = s.1 ||| s.2.1 := by
  refine ⟨h.1, ?_⟩
  apply Nat.eq_of_testBit_eq
  intro i
  rw [Nat.testBit_land]
  have hbm : boardMask = 2 ^ 42 - 1 := by norm_num [boardMask]
  rw [hbm, Nat.testBit_two_pow_sub_one]
  rcases hb : (s.1 ||| s.2.1).testBit i with _ | _
  · simp
  · have := h.2.1 i hb
    simp [this]

end Board

namespace AI

open Board

theorem selGo_eq_none_iff (plays : Store Nat) (wins : Store Rat)
    (state : GameState) (l : List Nat) :
    ∀ (best : Option Nat) (hi : Rat),
    (selGo plays wins state l best hi = none
      ↔ best = none
        ∧ ∀ m ∈ l, winRate plays wins (updateState state m) ≤ hi) := by
  induction l with
  | nil =>
    intro best hi
    simp [selGo]
  | cons move rest ih =>
    intro best hi
    simp only [selGo]
    by_cases h : hi < winRate plays wins (updateState state move)
    · rw [if_pos h, ih]
      constructor
      · rintro ⟨h1, _⟩
        exact absurd h1 (by simp)
      · rintro ⟨_, h2⟩
        exact absurd (h2 move (List.mem_cons_self move rest)) (not_le.mpr h)
    · rw [if_neg h, ih]
      constructor
      · rintro ⟨h1, h2⟩
        refine ⟨h1, ?_⟩
        intro m hm
        rcases List.mem_cons.mp hm with rfl | hm2
        · exact not_lt.mp h
        · exact h2 m hm2
      · rintro ⟨h1, h2⟩
        exact ⟨h1, fun m hm => h2 m (List.mem_cons_of_mem move hm)⟩

theorem selGo_some_max (plays : Store Nat) (wins : Store Rat)
    (state : GameState) (l : List Nat) :
    ∀ (best : Option Nat) (hi : Rat),
    (∀ b, best = some b → winRate plays wins (updateState state b) = hi) →
    ∀ m, selGo plays wins state l best hi = some m →
      hi ≤ winRate plays wins (updateState state m)
      ∧ ∀ x ∈ l, winRate plays wins (updateState state x)
          ≤ winRate plays wins (updateState state m) := by
  induction l with
  | nil =>
    intro best hi hinv m hm
    rw [selGo] at hm
    refine ⟨le_of_eq (hinv m hm).symm, by simp⟩
  | cons move rest ih =>
    intro best hi hinv m hm
    simp only [selGo] at hm
    by_cases h : hi < winRate plays wins (updateState state move)
    · rw [if_pos h] at hm
      have hinv2 : ∀ b, (some move : Option Nat) = some b →
          winRate plays wins (updateState state b)
            = winRate plays wins (updateState state move) := by
        intro b hb
        rw [← Option.some.inj hb]
      obtain ⟨h1, h2⟩ := ih (some move) _ hinv2 m hm
      refine ⟨le_of_lt (lt_of_lt_of_le h h1), ?_⟩
      intro x hx
      rcases List.mem_cons.mp hx with rfl | hx2
      · exact h1
      · exact h2 x hx2
    · rw [if_neg h] at hm
      obtain ⟨h1, h2⟩ := ih best hi hinv m hm
      refine ⟨h1, ?_⟩
      intro x hx
      rcases List.mem_cons.mp hx with rfl | hx2
      · exact le_trans (not_lt.mp h) h1
      · exact h2 x hx2

theorem selGo_some_first (plays : Store Nat) (wins : Store Rat)
    (state : GameState) (l : List Nat) :
    ∀ (best : Option Nat) (hi : Rat) (m : Nat),
    selGo plays wins state l best hi = some m →
      best = some m
      ∨ ∃ l1 l2, l = l1 ++ m :: l2
          ∧ hi < winRate plays wins (updateState state m)
          ∧ ∀ x ∈ l1, winRate plays wins (updateState state x)
              < winRate plays wins (updateState state m) := by
  induction l with
  | nil =>
    intro best hi m hm
    rw [selGo] at hm
    exact Or.inl hm
  | cons move rest ih =>
    intro best hi m hm
    simp only [selGo] at hm
    by_cases h : hi < winRate plays wins (updateState state move)
    · rw [if_pos h] at hm
      rcases ih (some move) _ m hm with heq | ⟨l1, l2, hsplit, hlt, hall⟩
      · have hmv : move = m := Option.some.inj heq
        subst hmv
        exact Or.inr ⟨[], rest, rfl, h, by simp⟩
      · refine Or.inr ⟨move :: l1, l2, by rw [hsplit, List.cons_append], lt_trans h hlt, ?_⟩
        intro x hx
        rcases List.mem_cons.mp hx with rfl | hx2
        · exact hlt
        · exact hall x hx2
    · rw [if_neg h] at hm
      rcases ih best hi m hm with heq | ⟨l1, l2, hsplit, hlt, hall⟩
      · exact Or.inl heq
      · refine Or.inr ⟨move :: l1, l2, by rw [hsplit, List.cons_append], hlt, ?_⟩
        intro x hx
        rcases List.mem_cons.mp hx with rfl | hx2
        · exact lt_of_le_of_lt (not_lt.mp h) hlt
        · exact hall x hx2

end AI

namespace ConnectFiveBoard

theorem set_of_getElem? {α : Type} :
    ∀ (l : List α) (i : Nat) (a : α), l[i]? = some a → l.set i a = l
  | [], i, a, h => by simp at h
  | x :: t, 0, a, h => by
    simp only [List.getElem?_cons_zero, Option.some.injEq] at h
    rw [List.set_cons_zero, h]
  | x :: t, i + 1, a, h => by
    rw [List.set_cons_succ]
    rw [set_of_getElem? t i a (by simpa using h)]

theorem roundTrip_board (board : List (List (Option String))) (row col : Nat)
    (p : String) (hrow : row < board.length)
    (hcol : col < (board.getD row []).length)
    (hempty : (board.getD row []).getD col none = none) :
    setCell (setCell board row col (some p)) row col none = board := by
  have hR : board[row]? = some (board.getD row []) := by
    rw [List.getD_eq_getElem?_getD]
    rcases hx : board[row]? with _ | R
    · rw [List.getElem?_eq_none_iff] at hx
      omega
    · rfl
  have hget1 : (board.set row ((board.getD row []).set col (some p))).getD row []
      = (board.getD row []).set col (some p) := by
    rw [List.getD_eq_getElem?_getD, List.getElem?_set_self (by omega)]
    rfl
  have hcell : (board.getD row [])[col]? = some none := by
    rcases hx : (board.getD row [])[col]? with _ | v
    · rw [List.getElem?_eq_none_iff] at hx
      omega
    · rw [List.getD_eq_getElem?_getD, hx] at hempty
      simp only [Option.getD_some] at hempty
      rw [hempty]
  rw [setCell, setCell, hget1, List.set_set, List.set_set]
  rw [set_of_getElem? _ _ _ hcell]
  rw [set_of_getElem? _ _ _ hR]

theorem row_length_eq (s : State) (hlen : s.board.length = s.size)
    (hrows : ∀ r ∈ s.board, r.length = s.size) (row : Nat) (hrow : row < s.size) :
    (s.board.getD row []).length = s.size := by
  have hmem : s.board.getD row [] ∈ s.board := by
    rw [List.getD_eq_getElem?_getD]
    rcases hx : s.board[row]? with _ | R
    · exfalso
      rw [List.getElem?_eq_none_iff] at hx
      omega
    · simp only [Option.getD_some]
      exact List.getElem?_mem hx
  exact hrows _ hmem

theorem getCell_setCell_same (b : List (List (Option String))) (row col : Nat)
    (v : Option String) (hrow : row < b.length)
    (hcol : col < (b.getD row []).length) :
    ((setCell b row col v).getD row []).getD col none = v := by
  have hget1 : (setCell b row col v).getD row [] = (b.getD row []).set col v := by
    rw [setCell, List.getD_eq_getElem?_getD, List.getElem?_set_self (by omega)]
    rfl
  rw [hget1, List.getD_eq_getElem?_getD, List.getElem?_set_self hcol]
  rfl

end ConnectFiveBoard

namespace ConnectFiveEngine

open ConnectFiveBoard

theorem some_beq_none (a : String) : ((some a == (none : Option String)) = false) := rfl

theorem none_beq_some (a : String) : (((none : Option String) == some a) = false) := rfl

theorem some_beq_some (a b : String) : ((some a == some b) = (a == b)) := rfl

theorem leadCount_nil (pc : String) : leadCount pc [] = 0 := rfl

theorem leadCount_none (pc : String) (rest : List (Option String)) :
    leadCount pc (none :: rest) = 0 := rfl

theorem leadCount_other {pc q : String} (h : ¬q = pc) (rest : List (Option String)) :
    leadCount pc (some q :: rest) = 0 := by
  simp [leadCount, h]

theorem leadCount_replicate_append (pc : String) (m : Nat) (s : List (Option String)) :
    leadCount pc (List.replicate m (some pc) ++ s) = m + leadCount pc s := by
  induction m with
  | zero => simp
  | succ m ih =>
    rw [List.replicate_succ, List.cons_append]
    simp only [leadCount, beq_self_eq_true, if_true, ih]
    omega

theorem replicate_append_cons (c : Nat) (q : String) (rest : List (Option String)) :
    List.replicate c (some q) ++ some q :: rest
      = List.replicate (c + 1) (some q) ++ rest := by
  rw [List.replicate_succ']
  simp

theorem runsScore_cons_none (turn : String) (rest : List (Option String)) (lb : Bool) :
    runsScore turn (none :: rest) lb = runsScore turn rest false := by
  rw [runsScore]

theorem runsScore_cons_some (turn q : String) (rest : List (Option String)) (lb : Bool) :
    runsScore turn (some q :: rest) lb
      = runWeight turn q (leadCount q rest + 1)
          ((if lb then 1 else 0)
           + (if rightBlockedOf (rest.drop (leadCount q rest)) then 1 else 0))
        + runsScore turn (rest.drop (leadCount q rest)) true := by
  rw [runsScore]
  rcases h : rest.drop (leadCount q rest) with _ | ⟨a, t⟩
  · rfl
  · cases a <;> rfl

theorem runsScore_run (turn q : String) (c : Nat) (hc : 1 ≤ c)
    (s2 : List (Option String)) (h0 : leadCount q s2 = 0) (lb : Bool) :
    runsScore turn (List.replicate c (some q) ++ s2) lb
      = runWeight turn q c
          ((if lb then 1 else 0) + (if rightBlockedOf s2 then 1 else 0))
        + runsScore turn s2 true := by
  obtain ⟨c2, rfl⟩ : ∃ c2, c = c2 + 1 := ⟨c - 1, by omega⟩
  rw [List.replicate_succ, List.cons_append, runsScore_cons_some]
  rw [leadCount_replicate_append, h0]
  simp only [Nat.add_zero]
  have hdrop : List.drop c2 (List.replicate c2 (some q) ++ s2) = s2 := by
    have h := List.drop_left (List.replicate c2 (some q)) s2
    rwa [List.length_replicate] at h
  simp only [hdrop]

theorem leftB_nil : leftB [] = true := rfl

theorem leftB_concat (l : List (Option String)) (x : Option String) :
    leftB (l ++ [x]) = (match x with | Option.none => false | some _ => true) := by
  unfold leftB
  rw [List.getLast?_concat]
  cases x <;> rfl

theorem leftB_concat_none (l : List (Option String)) : leftB (l ++ [none]) = false := by
  rw [leftB_concat]

theorem leftB_append_replicate (l : List (Option String)) (c : Nat) (q : String)
    (hc : 1 ≤ c) : leftB (l ++ List.replicate c (some q)) = true := by
  obtain ⟨c2, rfl⟩ : ∃ c2, c = c2 + 1 := ⟨c - 1, by omega⟩
  rw [List.replicate_succ', ← List.append_assoc, leftB_concat]

theorem seqGet_nonneg (sequence : List (Option String)) (n : Nat) :
    seqGet sequence (n : Int) = sequence.getD n none := by
  rw [seqGet, if_pos (Int.natCast_nonneg n)]
  simp

theorem leftB_eval (pfx0 t : List (Option String)) :
    (if ((pfx0.length : Int) - 1) < 0 then (1 : Nat)
     else if seqGet (pfx0 ++ t) ((pfx0.length : Int) - 1) ≠ none then 1 else 0)
      = (if leftB pfx0 then 1 else 0) := by
  cases pfx0 using List.reverseRecOn with
  | nil =>
    rw [leftB_nil]
    norm_num
  | append_singleton l x =>
    have hlen : (((l ++ [x]).length : Int) - 1) = ((l.length : Nat) : Int) := by
      rw [List.length_append, List.length_singleton]
      push_cast
      ring
    rw [hlen, if_neg (by omega : ¬((l.length : Nat) : Int) < 0)]
    have hget : seqGet ((l ++ [x]) ++ t) ((l.length : Nat) : Int) = x := by
      rw [seqGet_nonneg, List.getD_eq_getElem?_getD, List.append_assoc,
        List.getElem?_append_right (le_refl _)]
      simp
    rw [hget, leftB_concat]
    cases x <;> simp

theorem runsScore_nil (turn : String) (lb : Bool) : runsScore turn [] lb = 0 := by
  rw [runsScore]

theorem heuristicGo_nil (sequence : List (Option String)) (turn : String)
    (index count : Nat) (total : Rat) (piece : Option String) :
    heuristicGo sequence turn [] index count total piece = total := rfl

theorem heuristicGo_none_none (sequence : List (Option String)) (turn : String)
    (rest : List (Option String)) (index count : Nat) (total : Rat) :
    heuristicGo sequence turn (none :: rest) index count total none
      = heuristicGo sequence turn rest (index + 1) count total none := by
  simp [heuristicGo]

theorem heuristicGo_none_some (sequence : List (Option String)) (turn : String)
    (rest : List (Option String)) (index count : Nat) (total : Rat) (q : String) :
    heuristicGo sequence turn (some q :: rest) index count total none
      = heuristicGo sequence turn rest (index + 1) 1 total (some q) := by
  simp [heuristicGo]

theorem heuristicGo_some_same (sequence : List (Option String)) (turn : String)
    (rest : List (Option String)) (index count : Nat) (total : Rat) (q : String) :
    heuristicGo sequence turn (some q :: rest) index count total (some q)
      = heuristicGo sequence turn rest (index + 1) (count + 1) total (some q) := by
  simp [heuristicGo]

theorem heuristicGo_flush (sequence : List (Option String)) (turn : String)
    (rest : List (Option String)) (index count : Nat) (total : Rat) (q : String)
    (square : Option String) (hne : (square == some q) = false) (hc : 0 < count) :
    heuristicGo sequence turn (square :: rest) index count total (some q)
      = heuristicGo sequence turn rest (index + 1)
          (if square == none then 0 else 1)
          (match combinationScore (count,
              ((if square ≠ none ∨ sequence.length - 1 ≤ index then 1 else 0)
               + (if ((index : Int) - count - 1) < 0 then 1
                  else if seqGet sequence ((index : Int) - count - 1) ≠ none
                       then 1 else 0)),
              turn == q) with
           | some w => if q == "X" then total + w else total - w
           | none => total)
          square := by
  rw [heuristicGo]
  rw [hne]
  simp only [Bool.false_eq_true, if_false, hc, if_pos]

theorem total2_eq (turn q : String) (c : Nat) (total : Rat) (be : Nat) :
    (match combinationScore (c, be, turn == q) with
     | some w => if q == "X" then total + w else total - w
     | none => total)
      = total + runWeight turn q c be := by
  unfold runWeight
  rcases hcs : combinationScore (c, be, turn == q) with _ | w
  · simp [hcs]
  · rcases hq : (q == "X") with _ | _ <;> simp [hcs, hq, sub_eq_add_neg]

theorem fresh_nil (turn : String) (pfx : List (Option String)) (c0 : Nat)
    (total : Rat) :
    heuristicGo (pfx ++ ([] ++ [none])) turn ([] ++ [none]) pfx.length c0 total none
      = total + runsScore turn [] (leftB pfx) := by
  simp only [List.nil_append]
  rw [heuristicGo_none_none, heuristicGo_nil, runsScore_nil, add_zero]

theorem run_nil (turn q : String) (pfx0 : List (Option String)) (c : Nat)
    (total : Rat) (hc : 1 ≤ c) :
    heuristicGo (pfx0 ++ (List.replicate c (some q) ++ ([] ++ [none]))) turn
        ([] ++ [none]) (pfx0.length + c) c total (some q)
      = total + runsScore turn (List.replicate c (some q) ++ []) (leftB pfx0) := by
  simp only [List.nil_append, List.append_nil]
  rw [heuristicGo_flush _ _ _ _ _ _ _ _ (none_beq_some q) (by omega), heuristicGo_nil]
  have hlen : (pfx0 ++ (List.replicate c (some q) ++ [none])).length
      = pfx0.length + c + 1 := by
    simp only [List.length_append, List.length_replicate, List.length_cons,
      List.length_nil]
    omega
  have hright : (if (none : Option String) ≠ none
      ∨ (pfx0 ++ (List.replicate c (some q) ++ [none])).length - 1
        ≤ pfx0.length + c then (1 : Nat) else 0) = 1 := by
    rw [hlen]
    simp
  have hstart : (((pfx0.length + c : Nat) : Int) - c - 1)
      = ((pfx0.length : Nat) : Int) - 1 := by
    push_cast
    ring
  rw [hright, hstart, leftB_eval pfx0 (List.replicate c (some q) ++ [none])]
  have hrs := runsScore_run turn q c hc [] rfl (leftB pfx0)
  rw [List.append_nil] at hrs
  rw [hrs, runsScore_nil, add_zero, total2_eq]
  have hrbnil : rightBlockedOf ([] : List (Option String)) = true := rfl
  rw [hrbnil]
  rcases hlb : leftB pfx0 with _ | _ <;> simp [hlb]

theorem run_flush_none (turn q : String) (pfx0 rest : List (Option String))
    (c : Nat) (total : Rat) (hc : 1 ≤ c) :
    heuristicGo (pfx0 ++ (List.replicate c (some q) ++ ((none :: rest) ++ [none])))
        turn ((none :: rest) ++ [none]) (pfx0.length + c) c total (some q)
      = heuristicGo
          (pfx0 ++ (List.replicate c (some q) ++ ((none :: rest) ++ [none]))) turn
          (rest ++ [none]) (pfx0.length + c + 1) 0
          (total + runWeight turn q c
            ((if leftB pfx0 then 1 else 0)
             + (if rightBlockedOf (none :: rest) then 1 else 0))) none := by
  rw [List.cons_append]
  rw [heuristicGo_flush _ _ _ _ _ _ _ _ (none_beq_some q) (by omega)]
  have hlen : (pfx0 ++ (List.replicate c (some q) ++ (none :: (rest ++ [none])))).length
      = pfx0.length + c + rest.length + 2 := by
    simp only [List.length_append, List.length_replicate, List.length_cons,
      List.length_nil]
    omega
  have hright : (if (none : Option String) ≠ none
      ∨ (pfx0 ++ (List.replicate c (some q) ++ (none :: (rest ++ [none])))).length - 1
        ≤ pfx0.length + c then (1 : Nat) else 0) = 0 := by
    rw [hlen]
    have h1 : ¬((none : Option String) ≠ none
        ∨ pfx0.length + c + rest.length + 2 - 1 ≤ pfx0.length + c) := by
      push_neg
      exact ⟨rfl, by omega⟩
    rw [if_neg h1]
  have hstart : (((pfx0.length + c : Nat) : Int) - c - 1)
      = ((pfx0.length : Nat) : Int) - 1 := by
    push_cast
    ring
  rw [hright, hstart,
    leftB_eval pfx0 (List.replicate c (some q) ++ (none :: (rest ++ [none]))),
    total2_eq]
  have hrb : rightBlockedOf (none :: rest) = false := rfl
  rw [hrb]
  rcases hlb : leftB pfx0 with _ | _ <;> simp [hlb]

theorem run_flush_some (turn q p : String) (pfx0 rest : List (Option String))
    (c : Nat) (total : Rat) (hc : 1 ≤ c) (hpq : (p == q) = false) :
    heuristicGo (pfx0 ++ (List.replicate c (some q) ++ ((some p :: rest) ++ [none])))
        turn ((some p :: rest) ++ [none]) (pfx0.length + c) c total (some q)
      = heuristicGo
          (pfx0 ++ (List.replicate c (some q) ++ ((some p :: rest) ++ [none]))) turn
          (rest ++ [none]) (pfx0.length + c + 1) 1
          (total + runWeight turn q c
            ((if leftB pfx0 then 1 else 0)
             + (if rightBlockedOf (some p :: rest) then 1 else 0))) (some p) := by
  rw [List.cons_append]
  rw [heuristicGo_flush _ _ _ _ _ _ _ _ (by rw [some_beq_some, hpq]) (by omega)]
  have hright : (if (some p : Option String) ≠ none
      ∨ (pfx0 ++ (List.replicate c (some q)
          ++ (some p :: (rest ++ [none])))).length - 1
        ≤ pfx0.length + c then (1 : Nat) else 0) = 1 := by
    rw [if_pos (Or.inl (by simp))]
  have hstart : (((pfx0.length + c : Nat) : Int) - c - 1)
      = ((pfx0.length : Nat) : Int) - 1 := by
    push_cast
    ring
  rw [hright, hstart,
    leftB_eval pfx0 (List.replicate c (some q) ++ (some p :: (rest ++ [none]))),
    total2_eq]
  have hrb : rightBlockedOf (some p :: rest) = true := rfl
  rw [hrb]
  have hsq : ((some p : Option String) == none) = false := rfl
  rw [hsq]
  rcases hlb : leftB pfx0 with _ | _ <;> simp [hlb]

theorem heuristic_runs (turn : String) : ∀ n : Nat,
    (∀ (s pfx : List (Option String)) (c0 : Nat) (total : Rat), s.length ≤ n →
      heuristicGo (pfx ++ (s ++ [none])) turn (s ++ [none]) pfx.length c0 total none
        = total + runsScore turn s (leftB pfx))
    ∧ (∀ (q : String) (s2 pfx0 : List (Option String)) (c : Nat) (total : Rat),
        1 ≤ c → s2.length ≤ n →
      heuristicGo (pfx0 ++ (List.replicate c (some q) ++ (s2 ++ [none]))) turn
          (s2 ++ [none]) (pfx0.length + c) c total (some q)
        = total + runsScore turn (List.replicate c (some q) ++ s2) (leftB pfx0)) := by
  intro n
  induction n with
  | zero =>
    constructor
    · intro s pfx c0 total hlen
      cases s with
      | nil => exact fresh_nil turn pfx c0 total
      | cons a t => simp at hlen
    · intro q s2 pfx0 c total hc hlen
      cases s2 with
      | nil => exact run_nil turn q pfx0 c total hc
      | cons a t => simp at hlen
  | succ n ih =>
    constructor
    · intro s pfx c0 total hlen
      cases s with
      | nil => exact fresh_nil turn pfx c0 total
      | cons a rest =>
        have hlen2 : rest.length ≤ n := by
          rw [List.length_cons] at hlen
          omega
        cases a with
        | none =>
          rw [List.cons_append, heuristicGo_none_none]
          have hfull : pfx ++ (none :: (rest ++ [none]))
              = (pfx ++ [none]) ++ (rest ++ [none]) := by
            simp
          rw [hfull]
          have hidx : pfx.length + 1 = (pfx ++ [none]).length := by
            simp
          rw [hidx, ih.1 rest (pfx ++ [none]) c0 total hlen2, leftB_concat_none,
            runsScore_cons_none]
        | some q =>
          rw [List.cons_append, heuristicGo_none_some]
          have h2 := ih.2 q rest pfx 1 total (le_refl 1) hlen2
          have hrep : List.replicate 1 (some q) ++ (rest ++ [none])
              = some q :: (rest ++ [none]) := by
            simp [List.replicate]
          rw [hrep, show pfx.length + 1 = pfx.length + 1 from rfl] at h2
          rw [h2, show List.replicate 1 (some q) ++ rest = some q :: rest by
            simp [List.replicate]]
    · intro q s2 pfx0 c total hc hlen
      cases s2 with
      | nil => exact run_nil turn q pfx0 c total hc
      | cons a rest =>
        have hlen2 : rest.length ≤ n := by
          rw [List.length_cons] at hlen
          omega
        cases a with
        | none =>
          rw [run_flush_none turn q pfx0 rest c total hc]
          have hfull : pfx0 ++ (List.replicate c (some q) ++ ((none :: rest) ++ [none]))
              = ((pfx0 ++ List.replicate c (some q)) ++ [none]) ++ (rest ++ [none]) := by
            simp
          rw [hfull]
          have hidx : pfx0.length + c + 1
              = ((pfx0 ++ List.replicate c (some q)) ++ [none]).length := by
            simp only [List.length_append, List.length_replicate, List.length_cons,
              List.length_nil]
          rw [hidx]
          rw [ih.1 rest ((pfx0 ++ List.replicate c (some q)) ++ [none]) 0
            (total + runWeight turn q c
              ((if leftB pfx0 then 1 else 0)
               + (if rightBlockedOf (none :: rest) then 1 else 0))) hlen2]
          rw [leftB_concat_none]
          rw [runsScore_run turn q c hc (none :: rest) (leadCount_none q rest)
            (leftB pfx0), runsScore_cons_none, add_assoc]
        | some p =>
          by_cases hpq : p = q
          · subst hpq
            rw [List.cons_append, heuristicGo_some_same]
            have hfull : pfx0 ++ (List.replicate c (some p) ++ (some p :: (rest ++ [none])))
                = pfx0 ++ (List.replicate (c + 1) (some p) ++ (rest ++ [none])) := by
              rw [replicate_append_cons]
            rw [hfull, show pfx0.length + c + 1 = pfx0.length + (c + 1) by omega]
            rw [ih.2 p rest pfx0 (c + 1) total (by omega) hlen2]
            rw [replicate_append_cons]
          · have hpq2 : (p == q) = false := by
              simp [hpq]
            rw [run_flush_some turn q p pfx0 rest c total hc hpq2]
            have hfull : pfx0 ++ (List.replicate c (some q) ++ ((some p :: rest) ++ [none]))
                = (pfx0 ++ List.replicate c (some q))
                  ++ (List.replicate 1 (some p) ++ (rest ++ [none])) := by
              simp [List.replicate]
            rw [hfull]
            have hidx : pfx0.length + c + 1
                = (pfx0 ++ List.replicate c (some q)).length + 1 := by
              simp only [List.length_append, List.length_replicate]
            rw [hidx]
            rw [ih.2 p rest (pfx0 ++ List.replicate c (some q)) 1
              (total + runWeight turn q c
                ((if leftB pfx0 then 1 else 0)
                 + (if rightBlockedOf (some p :: rest) then 1 else 0)))
              (le_refl 1) hlen2]
            rw [leftB_append_replicate pfx0 c q hc]
            rw [runsScore_run turn q c hc (some p :: rest)
              (leadCount_other hpq rest) (leftB pfx0)]
            rw [show List.replicate 1 (some p) ++ rest = some p :: rest by
              simp [List.replicate], add_assoc]

/-- Main refinement: the loop of `getHeuristicScore`, run on a line with the
sentinel appended (as every caller does), computes exactly the sum over
maximal runs of the signed table weights. -/
theorem getHeuristicScore_eq_runsScore (sequence : List (Option String))
    (turn : String) :
    getHeuristicScore (sequence ++ [none]) turn = runsScore turn sequence true := by
  have h := (heuristic_runs turn sequence.length).1 sequence [] 0 0 (le_refl _)
  rw [List.nil_append] at h
  simp only [List.length_nil] at h
  rw [getHeuristicScore, h, leftB_nil, zero_add]

end ConnectFiveEngine

/-- Claim C1: the claim states that `userUndoMove`, on a stack with at least
two entries, clears both undone board cells back to empty.  The code pops
the two entries and restores the hash but never writes to the board; this
run shows two placed pieces still on the board after the undo, contradicting
both the claim and the method's own docstring (the user is told they can
replay the move, yet the cells remain occupied and `isLegalMove` rejects
them). -/
theorem C1_userUndoMove_leaves_cells :
    (ConnectFiveBoard.userUndoMove
      (ConnectFiveBoard.userPlacePiece
        (ConnectFiveBoard.userPlacePiece ConnectFiveBoard.sampleGrid 0 0 "X").2
        0 1 "O").2).undoStack = []
    ∧ (ConnectFiveBoard.userUndoMove
      (ConnectFiveBoard.userPlacePiece
        (ConnectFiveBoard.userPlacePiece ConnectFiveBoard.sampleGrid 0 0 "X").2
        0 1 "O").2).hashKey = ConnectFiveBoard.sampleGrid.hashKey
    ∧ ConnectFiveBoard.getCell (ConnectFiveBoard.userUndoMove
      (ConnectFiveBoard.userPlacePiece
        (ConnectFiveBoard.userPlacePiece ConnectFiveBoard.sampleGrid 0 0 "X").2
        0 1 "O").2) 0 0 = some "X"
    ∧ ConnectFiveBoard.getCell (ConnectFiveBoard.userUndoMove
      (ConnectFiveBoard.userPlacePiece
        (ConnectFiveBoard.userPlacePiece ConnectFiveBoard.sampleGrid 0 0 "X").2
        0 1 "O").2) 0 1 = some "O" := by
  decide

/-- Claim C2: placing a piece on an empty in-bounds cell with `placePiece`
and then calling `undoMove` restores the hash exactly, clears the cell, and
restores the undo stack; in fact the whole state is restored. -/
theorem C2_place_undo_roundtrip (s : ConnectFiveBoard.State) (row col : Nat)
    (p : String) (hlen : s.board.length = s.size)
    (hrows : ∀ r ∈ s.board, r.length = s.size)
    (hrow : row < s.size) (hcol : col < s.size)
    (hempty : ConnectFiveBoard.getCell s row col = none)
    (_hp : p = "X" ∨ p = "O") :
    (ConnectFiveBoard.undoMove (ConnectFiveBoard.placePiece s row col p)).hashKey
        = s.hashKey
    ∧ ConnectFiveBoard.getCell
        (ConnectFiveBoard.undoMove (ConnectFiveBoard.placePiece s row col p))
        row col = none
    ∧ (ConnectFiveBoard.undoMove
        (ConnectFiveBoard.placePiece s row col p)).undoStack = s.undoStack
    ∧ ConnectFiveBoard.undoMove (ConnectFiveBoard.placePiece s row col p) = s := by
  have hrow2 : row < s.board.length := by omega
  have hcol2 : col < (s.board.getD row []).length := by
    rw [ConnectFiveBoard.row_length_eq s hlen hrows row hrow]
    exact hcol
  have hboard : ConnectFiveBoard.setCell
      (ConnectFiveBoard.setCell s.board row col (some p)) row col none
        = s.board :=
    ConnectFiveBoard.roundTrip_board s.board row col p hrow2 hcol2 hempty
  have hmain : ConnectFiveBoard.undoMove (ConnectFiveBoard.placePiece s row col p)
      = s := by
    show ({ s with
      board := ConnectFiveBoard.setCell
        (ConnectFiveBoard.setCell s.board row col (some p)) row col none
      undoStack := s.undoStack
      hashKey := s.hashKey ^^^ ConnectFiveBoard.squareValueAt s row col p
        ^^^ ConnectFiveBoard.squareValueAt s row col p } : ConnectFiveBoard.State)
      = s
    rw [hboard, Nat.xor_cancel_right]
  refine ⟨?_, ?_, ?_, hmain⟩
  · rw [hmain]
  · rw [hmain]
    exact hempty
  · rw [hmain]

/-- Witness for C2 at a concrete grid, cell and piece. -/
theorem C2_place_undo_roundtrip_witness :
    ConnectFiveBoard.sampleGrid.board.length = ConnectFiveBoard.sampleGrid.size
    ∧ ConnectFiveBoard.getCell ConnectFiveBoard.sampleGrid 0 1 = none
    ∧ ConnectFiveBoard.undoMove
        (ConnectFiveBoard.placePiece ConnectFiveBoard.sampleGrid 0 1 "X")
      = ConnectFiveBoard.sampleGrid :=
  ⟨by decide, by decide,
    (C2_place_undo_roundtrip ConnectFiveBoard.sampleGrid 0 1 "X" (by decide)
      (by decide) (by decide) (by decide) (by decide) (Or.inl rfl)).2.2.2⟩

/-- Claim C3 counterexample: the claim says a run longer than the winning
length 5 is scored like a run of exactly 5 with the same blocked ends and
ownership.  A lone run of six `"X"` on a line (both ends at the board edge,
owner = mover) scores 0, while the corresponding run of five scores
200000000: the table lookup uses the uncapped run length and misses for
lengths above 5. -/
theorem C3_uncapped_run_counterexample :
    ConnectFiveEngine.getHeuristicScore
        (List.replicate 6 (some "X") ++ [none]) "X" = 0
    ∧ ConnectFiveEngine.getHeuristicScore
        (List.replicate 5 (some "X") ++ [none]) "X" = 200000000 := by
  constructor
  · rw [ConnectFiveEngine.getHeuristicScore_eq_runsScore]
    have h := ConnectFiveEngine.runsScore_run "X" "X" 6 (by omega) [] rfl true
    rw [List.append_nil] at h
    rw [h, ConnectFiveEngine.runsScore_nil, add_zero]
    norm_num [ConnectFiveEngine.runWeight, ConnectFiveEngine.combinationScore,
      ConnectFiveEngine.rightBlockedOf]
  · rw [ConnectFiveEngine.getHeuristicScore_eq_runsScore]
    have h := ConnectFiveEngine.runsScore_run "X" "X" 5 (by omega) [] rfl true
    rw [List.append_nil] at h
    rw [h, ConnectFiveEngine.runsScore_nil, add_zero]
    norm_num [ConnectFiveEngine.runWeight, ConnectFiveEngine.combinationScore,
      ConnectFiveEngine.rightBlockedOf]

/-- Claim C3, amended: on any line (with the sentinel empty cell appended, as
every caller does), `getHeuristicScore` equals the sum over maximal runs of
identical non-empty pieces of the signed weight looked up by the exact
(uncapped) run length, the number of blocked ends, and whether the owner is
the mover — a lookup miss (in particular every run longer than 5)
contributing nothing. -/
theorem C3_run_decomposition (sequence : List (Option String)) (turn : String) :
    ConnectFiveEngine.getHeuristicScore (sequence ++ [none]) turn
      = ConnectFiveEngine.runsScore turn sequence true :=
  ConnectFiveEngine.getHeuristicScore_eq_runsScore sequence turn

/-- Claim C4 counterexample: `updateState` flips the turn on every call, so
four consecutive `updateState` calls on column 3 from the initial state are
made by alternating players; after the fourth drop `hasWinner` reports 0,
not player 1. -/
theorem C4_consecutive_drops_counterexample :
    Board.hasWinner (Board.updateState (Board.updateState (Board.updateState
      (Board.updateState Board.start 3) 3) 3) 3) = 0 := by
  decide

/-- Claim C4, amended: player 1 drops into column 3 on four successive turns
with player 2 dropping into column 0 in between (no opponent block of
column 3); immediately after player 1's fourth drop `hasWinner` reports
player 1. -/
theorem C4_alternating_column_win :
    Board.hasWinner (Board.updateState (Board.updateState (Board.updateState
      (Board.updateState (Board.updateState (Board.updateState
        (Board.updateState Board.start 3) 0) 3) 0) 3) 0) 3) = 1 := by
  decide

/-- Claim C5 counterexample: with the child of column 0 already stored in
`plays` (and the other children absent), the random step of `runSimulation`
can return exactly that stored child — `choice(nextStates)` draws from all
children, not only the unexplored ones. -/
theorem C5_support_includes_stored :
    ((AI.nextStatesOf Board.start).all
        (fun pos => AI.containsKey [(Board.updateState Board.start 0, 1)] pos))
      = false
    ∧ AI.simStep (fun _ => Board.start) [(Board.updateState Board.start 0, 1)] 0
        Board.start = Board.updateState Board.start 0
    ∧ AI.containsKey [(Board.updateState Board.start 0, 1)]
        (Board.updateState Board.start 0) = true := by
  refine ⟨by decide, by decide, by decide⟩

/-- Claim C5, amended: whenever not every child is already in the `plays`
store, the state chosen by the random step is some child of the current
state (the support of the draw is the full child list; it may include
children already present in the store, as the counterexample shows). -/
theorem C5_random_step_picks_child
    (uctChoice : List Board.GameState → Board.GameState)
    (plays : AI.Store Nat) (pick : Nat) (state : Board.GameState)
    (h : ((AI.nextStatesOf state).all (fun pos => AI.containsKey plays pos))
      = false) :
    AI.simStep uctChoice plays pick state ∈ AI.nextStatesOf state := by
  have hne : (AI.nextStatesOf state).length ≠ 0 := by
    intro hnil
    rw [List.length_eq_zero] at hnil
    rw [hnil] at h
    simp at h
  rw [AI.simStep]
  simp only [h, Bool.false_eq_true, if_false]
  have hlt : pick % (AI.nextStatesOf state).length
      < (AI.nextStatesOf state).length := Nat.mod_lt _ (by omega)
  rw [List.getD_eq_getElem?_getD, List.getElem?_eq_getElem hlt]
  exact List.getElem_mem hlt

/-- Witness for C5 at a concrete state and store. -/
theorem C5_random_step_picks_child_witness :
    ((AI.nextStatesOf Board.start).all
        (fun pos => AI.containsKey ([] : AI.Store Nat) pos)) = false
    ∧ AI.simStep (fun _ => Board.start) ([] : AI.Store Nat) 5 Board.start
        ∈ AI.nextStatesOf Board.start :=
  ⟨by decide,
    C5_random_step_picks_child (fun _ => Board.start) ([] : AI.Store Nat) 5
      Board.start (by decide)⟩

/-- Claim C6 counterexample: from the initial state (seven legal moves) with
empty `plays`/`wins` stores, every child's win rate is 0, no move beats the
initial `highestWinRate = 0`, and the selection loop returns `None` rather
than any legal move. -/
theorem C6_zero_rates_return_none :
    2 ≤ (Board.getLegalMoves Board.start).length
    ∧ AI.selectNextMove [] [] Board.start = none := by
  constructor
  · decide
  · simp [AI.selectNextMove, Board.getLegalMoves, AI.selGo, AI.winRate, AI.lookupD]

/-- Claim C6, amended: the selection phase of `getNextMoves` returns `None`
exactly when no child of a legal move has win rate above 0; when it returns
a move, that move is legal, its child's rate is positive and maximal among
all legal moves, and every move scanned before it has a strictly smaller
rate (so among ties for the maximum the earliest scanned move wins). -/
theorem C6_selection_spec (plays : AI.Store Nat) (wins : AI.Store Rat)
    (state : Board.GameState) :
    (AI.selectNextMove plays wins state = none →
      ∀ m ∈ Board.getLegalMoves state,
        AI.winRate plays wins (Board.updateState state m) ≤ 0)
    ∧ (∀ m, AI.selectNextMove plays wins state = some m →
        m ∈ Board.getLegalMoves state
        ∧ 0 < AI.winRate plays wins (Board.updateState state m)
        ∧ (∀ x ∈ Board.getLegalMoves state,
            AI.winRate plays wins (Board.updateState state x)
              ≤ AI.winRate plays wins (Board.updateState state m))
        ∧ ∃ l1 l2, Board.getLegalMoves state = l1 ++ m :: l2
            ∧ ∀ x ∈ l1, AI.winRate plays wins (Board.updateState state x)
                < AI.winRate plays wins (Board.updateState state m)) := by
  constructor
  · intro h
    exact ((AI.selGo_eq_none_iff plays wins state
      (Board.getLegalMoves state) none 0).mp h).2
  · intro m hm
    have hmax := AI.selGo_some_max plays wins state (Board.getLegalMoves state)
      none 0 (by intro b hb; exact absurd hb (by simp)) m hm
    have hfirst := AI.selGo_some_first plays wins state (Board.getLegalMoves state)
      none 0 m hm
    rcases hfirst with h1 | ⟨l1, l2, hsplit, hlt, hall⟩
    · exact absurd h1 (by simp)
    · refine ⟨?_, hlt, hmax.2, l1, l2, hsplit, hall⟩
      rw [hsplit]
      exact List.mem_append_right l1 (List.mem_cons_self m l2)

/-- Witness for C6: with empty stores the selection returns `None`, and the
theorem then bounds the concrete rate of column 0's child by 0. -/
theorem C6_selection_spec_witness :
    AI.winRate [] [] (Board.updateState Board.start 0) ≤ 0 :=
  (C6_selection_spec [] [] Board.start).1
    (by simp [AI.selectNextMove, Board.getLegalMoves, AI.selGo, AI.winRate,
      AI.lookupD]) 0 (by decide)

/-- Claim C7: with exactly one legal move `getNextMoves` returns it before
any simulation runs, leaving the `plays`/`wins` stores untouched (for any
oracle number of simulations and any store transformer); with no legal move
it returns the `False` draw sentinel, again leaving the stores untouched. -/
theorem C7_single_move_short_circuit (simCount : Nat)
    (simulate : AI.Stores → AI.Stores) (stores : AI.Stores)
    (state : Board.GameState) :
    (∀ m, Board.getLegalMoves state = [m] →
      AI.getNextMoves simCount simulate stores state
        = (AI.MoveChoice.col m, stores))
    ∧ (Board.getLegalMoves state = [] →
      AI.getNextMoves simCount simulate stores state
        = (AI.MoveChoice.falseSentinel, stores)) := by
  constructor
  · intro m hm
    simp [AI.getNextMoves, hm]
  · intro hm
    simp [AI.getNextMoves, hm]

/-- Witness for C7: a position with only column 6 open returns column 6 and
the untouched store, and the full board returns the draw sentinel. -/
theorem C7_single_move_short_circuit_witness :
    Board.getLegalMoves (Board.boardMask ^^^ (63 <<< 36), 0, 1) = [6]
    ∧ AI.getNextMoves 3 id ([], []) (Board.boardMask ^^^ (63 <<< 36), 0, 1)
        = (AI.MoveChoice.col 6, ([], []))
    ∧ Board.getLegalMoves (Board.boardMask, 0, 1) = []
    ∧ AI.getNextMoves 3 id ([], []) (Board.boardMask, 0, 1)
        = (AI.MoveChoice.falseSentinel, ([], [])) :=
  ⟨by decide,
    (C7_single_move_short_circuit 3 id ([], [])
      (Board.boardMask ^^^ (63 <<< 36), 0, 1)).1 6 (by decide),
    by decide,
    (C7_single_move_short_circuit 3 id ([], []) (Board.boardMask, 0, 1)).2
      (by decide)⟩

/-- Claim C8: from any state reachable from `start` by legal moves, playing
any legal column yields a state whose two masks are disjoint and whose
occupancy lies inside the board mask. -/
theorem C8_update_preserves_invariant (s : Board.GameState) (col : Nat)
    (hreach : Board.Reachable s) (hleg : Board.isLegalMove s col = true) :
    (Board.updateState s col).1 &&& (Board.updateState s col).2.1 = 0
    ∧ ((Board.updateState s col).1 ||| (Board.updateState s col).2.1)
        &&& Board.boardMask
      = (Board.updateState s col).1 ||| (Board.updateState s col).2.1 :=
  Board.Inv_boardMask (Board.Inv_updateState (Board.Reachable_Inv hreach) hleg)

/-- Witness for C8 at the initial state and column 3. -/
theorem C8_update_preserves_invariant_witness :
    Board.isLegalMove Board.start 3 = true
    ∧ ((Board.updateState Board.start 3).1 &&& (Board.updateState Board.start 3).2.1 = 0
       ∧ ((Board.updateState Board.start 3).1 ||| (Board.updateState Board.start 3).2.1)
           &&& Board.boardMask
         = (Board.updateState Board.start 3).1 ||| (Board.updateState Board.start 3).2.1) :=
  ⟨by decide,
    C8_update_preserves_invariant Board.start 3 Board.Reachable.base (by decide)⟩

/-- Claim C9: `userPlacePiece` succeeds exactly when the cell is in bounds
and empty and the piece is `"X"` or `"O"`; on success it writes the cell,
pushes the move and XORs the hash, and on failure it returns the state
completely unchanged. -/
theorem C9_userPlacePiece_spec (s : ConnectFiveBoard.State) (row col : Nat)
    (piece : String) (hlen : s.board.length = s.size)
    (hrows : ∀ r ∈ s.board, r.length = s.size) :
    ((ConnectFiveBoard.userPlacePiece s row col piece).1 = true
      ↔ row < s.size ∧ col < s.size
        ∧ ConnectFiveBoard.getCell s row col = none
        ∧ (piece = "X" ∨ piece = "O"))
    ∧ ((ConnectFiveBoard.userPlacePiece s row col piece).1 = true →
        ConnectFiveBoard.getCell
            (ConnectFiveBoard.userPlacePiece s row col piece).2 row col
          = some piece
        ∧ (ConnectFiveBoard.userPlacePiece s row col piece).2.undoStack
          = (row, col, piece) :: s.undoStack
        ∧ (ConnectFiveBoard.userPlacePiece s row col piece).2.hashKey
          = s.hashKey ^^^ ConnectFiveBoard.squareValueAt s row col piece)
    ∧ ((ConnectFiveBoard.userPlacePiece s row col piece).1 = false →
        (ConnectFiveBoard.userPlacePiece s row col piece).2 = s) := by
  have hcond : (ConnectFiveBoard.isLegalMove s row col
      && (piece == "X" || piece == "O")) = true
      ↔ (row < s.size ∧ col < s.size
        ∧ ConnectFiveBoard.getCell s row col = none
        ∧ (piece = "X" ∨ piece = "O")) := by
    simp [ConnectFiveBoard.isLegalMove, and_assoc]
  refine ⟨?_, ?_, ?_⟩
  · rw [ConnectFiveBoard.userPlacePiece]
    split_ifs with h
    · exact iff_of_true rfl (hcond.mp h)
    · constructor
      · intro habs
        exact absurd habs (by simp)
      · intro hr
        exact absurd (hcond.mpr hr) h
  · intro htrue
    by_cases h : (ConnectFiveBoard.isLegalMove s row col
        && (piece == "X" || piece == "O")) = true
    · rw [ConnectFiveBoard.userPlacePiece, if_pos h]
      have hprops := hcond.mp h
      have hrow2 : row < s.board.length := by omega
      have hcol2 : col < (s.board.getD row []).length := by
        rw [ConnectFiveBoard.row_length_eq s hlen hrows row hprops.1]
        exact hprops.2.1
      refine ⟨?_, rfl, rfl⟩
      show ((ConnectFiveBoard.setCell s.board row col (some piece)).getD row []).getD
          col none = some piece
      exact ConnectFiveBoard.getCell_setCell_same s.board row col (some piece)
        hrow2 hcol2
    · rw [ConnectFiveBoard.userPlacePiece, if_neg h] at htrue
      exact absurd htrue (by simp)
  · intro hfalse
    by_cases h : (ConnectFiveBoard.isLegalMove s row col
        && (piece == "X" || piece == "O")) = true
    · rw [ConnectFiveBoard.userPlacePiece, if_pos h] at hfalse
      exact absurd hfalse (by simp)
    · rw [ConnectFiveBoard.userPlacePiece, if_neg h]

/-- Witness for C9 at a concrete grid: a successful placement writes the
stack entry. -/
theorem C9_userPlacePiece_spec_witness :
    (ConnectFiveBoard.userPlacePiece ConnectFiveBoard.sampleGrid 0 1 "X").2.undoStack
      = (0, 1, "X") :: ConnectFiveBoard.sampleGrid.undoStack :=
  ((C9_userPlacePiece_spec ConnectFiveBoard.sampleGrid 0 1 "X" (by decide)
    (by decide)).2.1 (by decide)).2.1

/-- Claim C10: with eight or fewer moves on the undo stack `selfHasFour` is
false, with six or fewer `opponentHasFour` is false, whatever the board
contents; consequently the tactical shortcut branch of `findNextMove`
(guarded by `selfHasFour` on a non-empty board) cannot fire during the
first eight plies. -/
theorem C10_early_game_guards (s : ConnectFiveBoard.State) :
    (s.undoStack.length ≤ 8 → ConnectFiveBoard.selfHasFour s = false)
    ∧ (s.undoStack.length ≤ 6 → ConnectFiveBoard.opponentHasFour s = false)
    ∧ (s.undoStack.length ≤ 8 →
        ConnectFiveEngine.findNextMoveShortcut s = false) := by
  have h1 : s.undoStack.length ≤ 8 → ConnectFiveBoard.selfHasFour s = false := by
    intro h
    rw [ConnectFiveBoard.selfHasFour, if_neg (by omega)]
  refine ⟨h1, ?_, ?_⟩
  · intro h
    rw [ConnectFiveBoard.opponentHasFour, if_neg (by omega)]
  · intro h
    rw [ConnectFiveEngine.findNextMoveShortcut, h1 h, Bool.and_false]

/-- Witness for C10 at a concrete grid with an empty stack. -/
theorem C10_early_game_guards_witness :
    ConnectFiveBoard.sampleGrid.undoStack.length ≤ 8
    ∧ ConnectFiveBoard.selfHasFour ConnectFiveBoard.sampleGrid = false
    ∧ ConnectFiveBoard.opponentHasFour ConnectFiveBoard.sampleGrid = false
    ∧ ConnectFiveEngine.findNextMoveShortcut ConnectFiveBoard.sampleGrid = false :=
  ⟨by decide,
    (C10_early_game_guards ConnectFiveBoard.sampleGrid).1 (by decide),
    (C10_early_game_guards ConnectFiveBoard.sampleGrid).2.1 (by decide),
    (C10_early_game_guards ConnectFiveBoard.sampleGrid).2.2 (by decide)⟩
